import Mathlib

/-!
Verification of the `ap_stat` dotplot core (`src/ap_stat.py`).

The three core functions are embedded shallowly over exact rational
numbers:

* `get_stack_keys` — the Key Generator (`get_stack_keys`, lines 24–28);
* `get_stack_dict` — the Binner (`get_stack_dict`, lines 51–82);
* `get_points`     — the Point Projector (`get_points`, lines 103–112).

Python runtime errors (`ValueError` from `min`/`max` on an empty
sequence, `ZeroDivisionError`, `IndexError` from `keys[-1]` on an empty
list) are modelled with `Except PyErr`.  A Python `dict` with rational
keys is modelled as an insertion-ordered association list
`List (ℚ × List ℚ)`; `dictSet` mirrors `d[k] = v` (overwrite in place,
or append a fresh entry at the end), `dictAppend` mirrors
`d[k].append(v)` for a key already present.
-/

/-- Error classes of the Python runtime errors the core can raise. -/
inductive PyErr : Type where
  /-- `ValueError`: `min()`/`max()` of an empty sequence. -/
  | emptyInput : PyErr
  /-- `ZeroDivisionError`. -/
  | divisionByZero : PyErr
  /-- `IndexError`: `keys[-1]` on an empty list. -/
  | indexError : PyErr
deriving DecidableEq, Repr

/-- Python `max(data)`: the maximum of a non-empty sequence, `ValueError`
on an empty one. -/
def pyMax (data : List ℚ) : Except PyErr ℚ :=
  match data with
  | [] => .error .emptyInput
  | d :: ds => .ok (ds.foldl max d)

/-- Python `min(data)`: the minimum of a non-empty sequence, `ValueError`
on an empty one. -/
def pyMin (data : List ℚ) : Except PyErr ℚ :=
  match data with
  | [] => .error .emptyInput
  | d :: ds => .ok (ds.foldl min d)

/-- Python division `a / b`: `ZeroDivisionError` when `b = 0`. -/
def pyDiv (a b : ℚ) : Except PyErr ℚ :=
  if b = 0 then .error .divisionByZero else .ok (a / b)

/-- Python `range(n)` for an `int` argument (empty when `n ≤ 0`). -/
def pyRange (n : ℤ) : List ℕ :=
  List.range n.toNat

/-- `get_stack_keys(data, num_stacks)` (src/ap_stat.py lines 24–28):
`upper_bound = max(data)`, `lower_bound = min(data)`, then the list
comprehension
`[lower_bound + i * (upper_bound - lower_bound) / (num_stacks-1)
  for i in range(num_stacks)]`.
The division is evaluated once per iteration, so `num_stacks ≤ 0`
performs no division at all. -/
def get_stack_keys (data : List ℚ) (num_stacks : ℤ) : Except PyErr (List ℚ) := do
  let upper_bound ← pyMax data
  let lower_bound ← pyMin data
  (pyRange num_stacks).mapM (fun (i : ℕ) => do
    let q ← pyDiv ((i : ℚ) * (upper_bound - lower_bound)) ((num_stacks : ℚ) - 1)
    pure (lower_bound + q))

/-- The keys of an association-list dict, in insertion order. -/
def kOf (d : List (ℚ × List ℚ)) : List ℚ :=
  d.map Prod.fst

/-- Python `d[k] = v` on an insertion-ordered dict: overwrite in place if
`k` is already a key, otherwise append a fresh entry at the end. -/
def dictSet (d : List (ℚ × List ℚ)) (k : ℚ) (v : List ℚ) : List (ℚ × List ℚ) :=
  if k ∈ kOf d then d.map (fun p => if p.1 = k then (p.1, v) else p)
  else d ++ [(k, v)]

/-- The dict comprehension `{key:[] for key in keys}`
(src/ap_stat.py line 53): insert each key in order with value `[]`. -/
def dictInit (keys : List ℚ) : List (ℚ × List ℚ) :=
  keys.foldl (fun d k => dictSet d k []) []

/-- Python `d[k].append(v)`: append `v` to the list stored at key `k`
(a no-op on entries whose key differs; `k` is always present at the
call sites in `get_stack_dict`). -/
def dictAppend (d : List (ℚ × List ℚ)) (k : ℚ) (v : ℚ) : List (ℚ × List ℚ) :=
  d.map (fun p => if p.1 = k then (p.1, p.2 ++ [v]) else p)

/-- The inner loop of `get_stack_dict` (src/ap_stat.py lines 64–74):
scan adjacent key pairs in order; on the first pair with
`keys[i-1] <= observation < keys[i]` return the left key. `none` means
the loop ran to the end with `add_to_end` still `True`. -/
def scanPairs (keys : List ℚ) (obs : ℚ) : Option ℚ :=
  match keys with
  | k1 :: k2 :: rest =>
      if k1 ≤ obs ∧ obs < k2 then some k1 else scanPairs (k2 :: rest) obs
  | _ => none

/-- The key whose list receives `obs` (src/ap_stat.py lines 64–80): the
first-matching left key, else the fallback `keys[-1]` (an `IndexError`
when `keys` is empty). -/
def binTarget (keys : List ℚ) (obs : ℚ) : Except PyErr ℚ :=
  match scanPairs keys obs with
  | some k => .ok k
  | none =>
      match keys.getLast? with
      | some k => .ok k
      | none => .error .indexError

/-- The outer loop of `get_stack_dict` (src/ap_stat.py lines 55–80):
fold over the observations, appending each to its target key's list. -/
def binLoop (keys : List ℚ) (d : List (ℚ × List ℚ)) :
    List ℚ → Except PyErr (List (ℚ × List ℚ))
  | [] => .ok d
  | obs :: rest =>
      match binTarget keys obs with
      | .error e => .error e
      | .ok k => binLoop keys (dictAppend d k obs) rest

/-- `get_stack_dict(data, num_stacks, keys)` (src/ap_stat.py lines
30–82): when `keys` is `None` obtain them from `get_stack_keys`,
initialize the dict with every key mapped to `[]`, then bin each
observation. -/
def get_stack_dict (data : List ℚ) (num_stacks : ℤ)
    (keys : Option (List ℚ)) : Except PyErr (List (ℚ × List ℚ)) := do
  let ks ← match keys with
    | none => get_stack_keys data num_stacks
    | some ks => pure ks
  binLoop ks (dictInit ks) data

/-- `get_points(stack_dict)` (src/ap_stat.py lines 103–112): for each
key in dict order and each observation at 0-based position `i` in its
list, append the pair `(key, i+1)`. -/
def get_points (stack_dict : List (ℚ × List ℚ)) : List (ℚ × ℕ) :=
  stack_dict.foldl
    (fun acc p => acc ++ p.2.enum.map (fun iq => (p.1, iq.1 + 1))) []

/-- Total number of binned observations: the sum of the bin list
lengths across the mapping. -/
def sumLen (d : List (ℚ × List ℚ)) : ℕ :=
  (d.map (fun p => p.2.length)).sum

/-- Spec-side description (for the amended C5): the supplied boundary
keys in first-occurrence order with later duplicates collapsed — each
key keeps the position of its first occurrence, repeats are dropped. -/
def firstOccur : List ℚ → List ℚ
  | [] => []
  | k :: ks => k :: (firstOccur ks).filter (fun m => m ≠ k)

/-! ### Basic facts about the Python `min`/`max` embedding -/

lemma le_foldl_max (l : List ℚ) : ∀ a : ℚ, a ≤ l.foldl max a := by
  induction l with
  | nil => intro a; simp
  | cons x xs ih =>
      intro a
      exact le_trans (le_max_left a x) (ih (max a x))

lemma foldl_min_le (l : List ℚ) : ∀ a : ℚ, l.foldl min a ≤ a := by
  induction l with
  | nil => intro a; simp
  | cons x xs ih =>
      intro a
      exact le_trans (ih (min a x)) (min_le_left a x)

lemma mem_le_foldl_max (l : List ℚ) : ∀ a x : ℚ, x ∈ l → x ≤ l.foldl max a := by
  induction l with
  | nil => intro a x hx; cases hx
  | cons y ys ih =>
      intro a x hx
      rcases List.mem_cons.mp hx with h | h
      · subst h
        exact le_trans (le_max_right a x) (le_foldl_max ys (max a x))
      · exact ih (max a y) x h

lemma foldl_max_const (l : List ℚ) (c : ℚ) (h : ∀ x ∈ l, x = c) :
    l.foldl max c = c := by
  induction l with
  | nil => rfl
  | cons y ys ih =>
      have hy : y = c := h y (List.mem_cons_self y ys)
      subst hy
      simp only [List.foldl_cons, max_self]
      exact ih (fun x hx => h x (List.mem_cons_of_mem y hx))

lemma foldl_min_const (l : List ℚ) (c : ℚ) (h : ∀ x ∈ l, x = c) :
    l.foldl min c = c := by
  induction l with
  | nil => rfl
  | cons y ys ih =>
      have hy : y = c := h y (List.mem_cons_self y ys)
      subst hy
      simp only [List.foldl_cons, min_self]
      exact ih (fun x hx => h x (List.mem_cons_of_mem y hx))

lemma pyMin_le_pyMax (d : ℚ) (ds : List ℚ) :
    ds.foldl min d ≤ ds.foldl max d :=
  le_trans (foldl_min_le ds d) (le_foldl_max ds d)

/-! ### The Key Generator unfolded -/

/-- The closed form of the comprehension in `get_stack_keys` when the
divisor is nonzero. -/
lemma mapM_keys_ok (L : List ℕ) (u l b : ℚ) (hb : b ≠ 0) :
    L.mapM (fun (i : ℕ) => do
        let q ← pyDiv ((i : ℚ) * (u - l)) b
        pure (l + q)) =
      (Except.ok (L.map (fun i : ℕ => l + (i : ℚ) * (u - l) / b)) :
        Except PyErr (List ℚ)) := by
  induction L with
  | nil => rfl
  | cons x xs ih =>
      rw [List.mapM_cons, ih]
      simp [pyDiv, hb]
      rfl

lemma get_stack_keys_cons (d : ℚ) (ds : List ℚ) (n : ℤ) :
    get_stack_keys (d :: ds) n =
      (pyRange n).mapM (fun (i : ℕ) => do
        let q ← pyDiv ((i : ℚ) * (ds.foldl max d - ds.foldl min d)) ((n : ℚ) - 1)
        pure (ds.foldl min d + q)) := rfl

lemma cast_sub_one_ne_zero (n : ℤ) (hn : 2 ≤ n) : (n : ℚ) - 1 ≠ 0 := by
  have h1 : (1 : ℚ) < (n : ℚ) := by exact_mod_cast lt_of_lt_of_le one_lt_two hn
  intro hc
  have : (n : ℚ) = 1 := by linarith
  linarith

lemma get_stack_keys_eq (d : ℚ) (ds : List ℚ) (n : ℤ) (hn : 2 ≤ n) :
    get_stack_keys (d :: ds) n =
      Except.ok ((List.range n.toNat).map
        (fun i : ℕ => ds.foldl min d +
          (i : ℚ) * (ds.foldl max d - ds.foldl min d) / ((n : ℚ) - 1))) := by
  rw [get_stack_keys_cons]
  exact mapM_keys_ok _ _ _ _ (cast_sub_one_ne_zero n hn)

/-! ### Dict model lemmas -/

lemma kOf_map_overwrite (d : List (ℚ × List ℚ)) (k : ℚ) (v : List ℚ) :
    kOf (d.map (fun p => if p.1 = k then (p.1, v) else p)) = kOf d := by
  induction d with
  | nil => rfl
  | cons p rest ih =>
      simp only [kOf, List.map_cons] at *
      by_cases h : p.1 = k <;> simp [h, ih]

lemma kOf_dictSet (d : List (ℚ × List ℚ)) (k : ℚ) (v : List ℚ) :
    kOf (dictSet d k v) = if k ∈ kOf d then kOf d else kOf d ++ [k] := by
  unfold dictSet
  by_cases h : k ∈ kOf d
  · rw [if_pos h, if_pos h]
    exact kOf_map_overwrite d k v
  · rw [if_neg h, if_neg h]
    simp [kOf]

lemma kOf_dictAppend (d : List (ℚ × List ℚ)) (k : ℚ) (v : ℚ) :
    kOf (dictAppend d k v) = kOf d := by
  induction d with
  | nil => rfl
  | cons p rest ih =>
      simp only [kOf, dictAppend, List.map_cons] at *
      by_cases h : p.1 = k <;> simp [h, ih]

lemma mem_kOf_foldl (keys : List ℚ) :
    ∀ d m, (m ∈ kOf (keys.foldl (fun d k => dictSet d k []) d) ↔
      m ∈ kOf d ∨ m ∈ keys) := by
  induction keys with
  | nil => intro d m; simp
  | cons k ks ih =>
      intro d m
      simp only [List.foldl_cons]
      rw [ih (dictSet d k []) m, kOf_dictSet]
      by_cases h : k ∈ kOf d
      · simp only [h, if_true, List.mem_cons]
        constructor
        · rintro (hm | hm)
          · exact Or.inl hm
          · exact Or.inr (Or.inr hm)
        · rintro (hm | hm | hm)
          · exact Or.inl hm
          · exact Or.inl (hm ▸ h)
          · exact Or.inr hm
      · simp only [h, if_false, List.mem_append, List.mem_singleton,
          List.mem_cons]
        tauto

lemma nodup_kOf_foldl (keys : List ℚ) :
    ∀ d, (kOf d).Nodup →
      (kOf (keys.foldl (fun d k => dictSet d k []) d)).Nodup := by
  induction keys with
  | nil => intro d hd; exact hd
  | cons k ks ih =>
      intro d hd
      simp only [List.foldl_cons]
      apply ih
      rw [kOf_dictSet]
      by_cases h : k ∈ kOf d
      · simpa [h] using hd
      · simp only [h, if_false]
        rw [List.nodup_append]
        refine ⟨hd, List.nodup_singleton k, ?_⟩
        intro a ha hak
        rw [List.mem_singleton] at hak
        subst hak
        exact h ha

lemma kOf_foldl_of_nodup (keys : List ℚ) :
    ∀ d, keys.Nodup → (∀ k ∈ keys, k ∉ kOf d) →
      kOf (keys.foldl (fun d k => dictSet d k []) d) = kOf d ++ keys := by
  induction keys with
  | nil => intro d _ _; simp
  | cons k ks ih =>
      intro d hnd hdisj
      simp only [List.foldl_cons]
      have hk : k ∉ kOf d := hdisj k (List.mem_cons_self k ks)
      have hstep : kOf (dictSet d k []) = kOf d ++ [k] := by
        rw [kOf_dictSet]; simp [hk]
      have hnd2 : ks.Nodup := (List.nodup_cons.mp hnd).2
      have hknotks : k ∉ ks := (List.nodup_cons.mp hnd).1
      have hdisj2 : ∀ m ∈ ks, m ∉ kOf (dictSet d k []) := by
        intro m hm
        rw [hstep]
        simp only [List.mem_append, List.mem_singleton]
        rintro (hmd | hmk)
        · exact hdisj m (List.mem_cons_of_mem k hm) hmd
        · exact hknotks (hmk ▸ hm)
      rw [ih (dictSet d k []) hnd2 hdisj2, hstep, List.append_assoc]
      rfl

lemma mem_kOf_dictInit (keys : List ℚ) (m : ℚ) :
    m ∈ kOf (dictInit keys) ↔ m ∈ keys := by
  unfold dictInit
  rw [mem_kOf_foldl keys [] m]
  simp [kOf]

lemma nodup_kOf_dictInit (keys : List ℚ) : (kOf (dictInit keys)).Nodup := by
  unfold dictInit
  exact nodup_kOf_foldl keys [] (by simp [kOf])

lemma kOf_dictInit_of_nodup (keys : List ℚ) (h : keys.Nodup) :
    kOf (dictInit keys) = keys := by
  unfold dictInit
  rw [kOf_foldl_of_nodup keys [] h (by simp [kOf])]
  rfl

lemma dictInit_values (keys : List ℚ) :
    ∀ p ∈ dictInit keys, p.2 = ([] : List ℚ) := by
  unfold dictInit
  suffices h : ∀ d, (∀ p ∈ d, p.2 = ([] : List ℚ)) →
      ∀ p ∈ keys.foldl (fun d k => dictSet d k []) d, p.2 = ([] : List ℚ) by
    exact h [] (by simp)
  induction keys with
  | nil => intro d hd; exact hd
  | cons k ks ih =>
      intro d hd
      simp only [List.foldl_cons]
      apply ih
      intro p hp
      unfold dictSet at hp
      by_cases h : k ∈ kOf d
      · simp only [h, if_true, List.mem_map] at hp
        obtain ⟨q, hq, hpq⟩ := hp
        by_cases hqk : q.1 = k
        · rw [if_pos hqk] at hpq
          rw [← hpq]
        · rw [if_neg hqk] at hpq
          rw [← hpq]
          exact hd q hq
      · simp only [h, if_false, List.mem_append, List.mem_singleton] at hp
        rcases hp with hp | hp
        · exact hd p hp
        · rw [hp]

/-! ### Scan and loop lemmas -/

/-- The inner scan equals a first-match search over the list of adjacent
key pairs `(keys[i-1], keys[i])`, taken in order from the second key
onward. -/
lemma scanPairs_eq_find (keys : List ℚ) (obs : ℚ) :
    scanPairs keys obs =
      ((keys.zip keys.tail).find?
        (fun p => decide (p.1 ≤ obs ∧ obs < p.2))).map Prod.fst := by
  induction keys with
  | nil => rfl
  | cons k1 rest ih =>
      cases rest with
      | nil => rfl
      | cons k2 rest2 =>
          simp only [scanPairs, List.tail_cons, List.zip_cons_cons,
            List.find?_cons]
          by_cases h : k1 ≤ obs ∧ obs < k2
          · simp [h]
          · simp only [h, if_false]
            rw [ih]
            rfl

lemma scanPairs_mem (keys : List ℚ) (obs k : ℚ)
    (h : scanPairs keys obs = some k) : k ∈ keys := by
  induction keys with
  | nil => cases h
  | cons k1 rest ih =>
      cases rest with
      | nil => cases h
      | cons k2 rest2 =>
          by_cases hc : k1 ≤ obs ∧ obs < k2
          · simp only [scanPairs, if_pos hc, Option.some_inj] at h
            rw [← h]
            exact List.mem_cons_self k1 (k2 :: rest2)
          · simp only [scanPairs, if_neg hc] at h
            exact List.mem_cons_of_mem k1 (ih h)

lemma scanPairs_none_of_ge (keys : List ℚ) (obs : ℚ)
    (h : ∀ b ∈ keys, b ≤ obs) : scanPairs keys obs = none := by
  induction keys with
  | nil => rfl
  | cons k1 rest ih =>
      cases rest with
      | nil => rfl
      | cons k2 rest2 =>
          have h2 : k2 ≤ obs := h k2 (List.mem_cons_of_mem k1
            (List.mem_cons_self k2 rest2))
          have hc : ¬ (k1 ≤ obs ∧ obs < k2) := by
            rintro ⟨-, hlt⟩
            exact absurd h2 (not_le.mpr hlt)
          simp only [scanPairs, if_neg hc]
          exact ih (fun b hb => h b (List.mem_cons_of_mem k1 hb))

lemma binTarget_mem (keys : List ℚ) (obs k : ℚ)
    (h : binTarget keys obs = .ok k) : k ∈ keys := by
  unfold binTarget at h
  cases hs : scanPairs keys obs with
  | some k0 =>
      rw [hs] at h
      have hk : k0 = k := by simpa using h
      subst hk
      exact scanPairs_mem keys obs k0 hs
  | none =>
      rw [hs] at h
      cases hl : keys.getLast? with
      | some k0 =>
          rw [hl] at h
          have hk : k0 = k := by simpa using h
          subst hk
          exact List.mem_of_mem_getLast? hl
      | none =>
          rw [hl] at h
          cases h

lemma binTarget_ok_of_ne_nil (keys : List ℚ) (obs : ℚ) (h : keys ≠ []) :
    ∃ k, binTarget keys obs = .ok k := by
  unfold binTarget
  cases hs : scanPairs keys obs with
  | some k0 => exact ⟨k0, rfl⟩
  | none =>
      cases hl : keys.getLast? with
      | some k0 => exact ⟨k0, rfl⟩
      | none => exact absurd (List.getLast?_eq_none_iff.mp hl) h

lemma dictAppend_of_not_mem (d : List (ℚ × List ℚ)) (k : ℚ) (v : ℚ)
    (h : k ∉ kOf d) : dictAppend d k v = d := by
  induction d with
  | nil => rfl
  | cons p rest ih =>
      have hp : p.1 ≠ k := by
        intro hc
        exact h (by simp [kOf, hc])
      have hrest : k ∉ kOf rest := by
        intro hc
        exact h (by simp [kOf] at hc ⊢; exact Or.inr hc)
      simp only [dictAppend, List.map_cons, if_neg hp]
      rw [show List.map (fun p => if p.1 = k then (p.1, p.2 ++ [v]) else p)
        rest = dictAppend rest k v from rfl, ih hrest]

lemma kOf_cons (p : ℚ × List ℚ) (rest : List (ℚ × List ℚ)) :
    kOf (p :: rest) = p.1 :: kOf rest := rfl

lemma sumLen_dictAppend (d : List (ℚ × List ℚ)) (k : ℚ) (v : ℚ) :
    ∀ (_ : (kOf d).Nodup) (_ : k ∈ kOf d),
      sumLen (dictAppend d k v) = sumLen d + 1 := by
  induction d with
  | nil => intro _ hk; cases hk
  | cons p rest ih =>
      intro hnd hk
      rw [kOf_cons] at hnd hk
      have hnd1 := (List.nodup_cons.mp hnd).1
      have hnd2 := (List.nodup_cons.mp hnd).2
      by_cases hp : p.1 = k
      · have hkrest : k ∉ kOf rest := by rw [← hp]; exact hnd1
        simp only [dictAppend, List.map_cons, if_pos hp]
        rw [show List.map (fun p => if p.1 = k then (p.1, p.2 ++ [v]) else p)
          rest = dictAppend rest k v from rfl,
          dictAppend_of_not_mem rest k v hkrest]
        simp only [sumLen, List.map_cons, List.sum_cons, List.length_append,
          List.length_singleton]
        omega
      · rcases List.mem_cons.mp hk with h | h
        · exact absurd h.symm hp
        · simp only [dictAppend, List.map_cons, if_neg hp]
          rw [show List.map (fun p => if p.1 = k then (p.1, p.2 ++ [v]) else p)
            rest = dictAppend rest k v from rfl]
          simp only [sumLen, List.map_cons, List.sum_cons]
          have hrec := ih hnd2 h
          simp only [sumLen] at hrec
          omega

lemma sumLen_eq_zero (d : List (ℚ × List ℚ))
    (h : ∀ p ∈ d, p.2 = ([] : List ℚ)) : sumLen d = 0 := by
  induction d with
  | nil => rfl
  | cons p rest ih =>
      simp only [sumLen, List.map_cons, List.sum_cons]
      rw [h p (List.mem_cons_self p rest)]
      simp only [List.length_nil, Nat.zero_add]
      exact ih (fun q hq => h q (List.mem_cons_of_mem p hq))

lemma binLoop_kOf (keys : List ℚ) (data : List ℚ) :
    ∀ d0 d, binLoop keys d0 data = .ok d → kOf d = kOf d0 := by
  induction data with
  | nil =>
      intro d0 d h
      cases h
      rfl
  | cons obs rest ih =>
      intro d0 d h
      unfold binLoop at h
      cases ht : binTarget keys obs with
      | error e => rw [ht] at h; cases h
      | ok k =>
          rw [ht] at h
          rw [ih (dictAppend d0 k obs) d h, kOf_dictAppend]

lemma binLoop_sum (keys : List ℚ) (data : List ℚ) :
    ∀ d0 d, (kOf d0).Nodup → (∀ k ∈ keys, k ∈ kOf d0) →
      binLoop keys d0 data = .ok d → sumLen d = sumLen d0 + data.length := by
  induction data with
  | nil =>
      intro d0 d _ _ h
      cases h
      simp
  | cons obs rest ih =>
      intro d0 d hnd hcov h
      unfold binLoop at h
      cases ht : binTarget keys obs with
      | error e => rw [ht] at h; cases h
      | ok k =>
          rw [ht] at h
          have hk : k ∈ kOf d0 := hcov k (binTarget_mem keys obs k ht)
          have hnd2 : (kOf (dictAppend d0 k obs)).Nodup := by
            rw [kOf_dictAppend]; exact hnd
          have hcov2 : ∀ m ∈ keys, m ∈ kOf (dictAppend d0 k obs) := by
            intro m hm
            rw [kOf_dictAppend]
            exact hcov m hm
          rw [ih (dictAppend d0 k obs) d hnd2 hcov2 h,
            sumLen_dictAppend d0 k obs hnd hk]
          simp only [List.length_cons]
          omega

lemma binLoop_ok_of_ne_nil (keys : List ℚ) (data : List ℚ) (h : keys ≠ []) :
    ∀ d0, ∃ d, binLoop keys d0 data = .ok d := by
  induction data with
  | nil => intro d0; exact ⟨d0, rfl⟩
  | cons obs rest ih =>
      intro d0
      obtain ⟨k, hk⟩ := binTarget_ok_of_ne_nil keys obs h
      obtain ⟨d, hd⟩ := ih (dictAppend d0 k obs)
      refine ⟨d, ?_⟩
      unfold binLoop
      rw [hk]
      exact hd

lemma get_stack_dict_some (data : List ℚ) (n : ℤ) (ks : List ℚ) :
    get_stack_dict data n (some ks) = binLoop ks (dictInit ks) data := rfl

lemma get_stack_dict_none_ok (data : List ℚ) (n : ℤ) (ks : List ℚ)
    (h : get_stack_keys data n = .ok ks) :
    get_stack_dict data n none = binLoop ks (dictInit ks) data := by
  unfold get_stack_dict
  rw [h]
  rfl

lemma get_stack_dict_none_err (data : List ℚ) (n : ℤ) (e : PyErr)
    (h : get_stack_keys data n = .error e) :
    get_stack_dict data n none = .error e := by
  unfold get_stack_dict
  rw [h]
  rfl

lemma sumLen_dictInit (keys : List ℚ) : sumLen (dictInit keys) = 0 :=
  sumLen_eq_zero (dictInit keys) (dictInit_values keys)

/-- C1: whichever boundary keys the Binner ends up using (auto-generated
from the data or supplied by the caller), a successful run appends every
observation to exactly one bin list: the bin list lengths of the
resulting mapping sum to the length of the dataset — total coverage, no
duplication, no loss. -/
theorem C1_total_coverage (data : List ℚ) (n : ℤ) (keysOpt : Option (List ℚ))
    (d : List (ℚ × List ℚ)) (h : get_stack_dict data n keysOpt = .ok d) :
    sumLen d = data.length := by
  have main : ∀ ks, binLoop ks (dictInit ks) data = .ok d →
      sumLen d = data.length := by
    intro ks hloop
    have := binLoop_sum ks data (dictInit ks) d (nodup_kOf_dictInit ks)
      (fun k hk => (mem_kOf_dictInit ks k).mpr hk) hloop
    rw [this, sumLen_dictInit]
    omega
  cases keysOpt with
  | some ks =>
      rw [get_stack_dict_some] at h
      exact main ks h
  | none =>
      cases hk : get_stack_keys data n with
      | error e =>
          rw [get_stack_dict_none_err data n e hk] at h
          cases h
      | ok ks =>
          rw [get_stack_dict_none_ok data n ks hk] at h
          exact main ks h

theorem C1_witness :
    get_stack_dict [5, 5, 5] 3 none = .ok [(5, [5, 5, 5])] ∧
      sumLen [((5 : ℚ), [5, 5, 5])] = ([5, 5, 5] : List ℚ).length :=
  ⟨by with_unfolding_all rfl,
    C1_total_coverage [5, 5, 5] 3 none [(5, [5, 5, 5])] (by with_unfolding_all rfl)⟩

/-- C7: on the empty dataset with no explicit keys, both the Key
Generator and the whole Binner pipeline fail with the empty-input error
class (`min`/`max` of an empty sequence), whatever the value of
`num_stacks` — the failure happens before `num_stacks` enters any
computation. -/
theorem C7_empty_input (n : ℤ) :
    get_stack_keys [] n = .error .emptyInput ∧
      get_stack_dict [] n none = .error .emptyInput :=
  ⟨rfl, rfl⟩

/-! ### Shape of the auto-generated key list -/

lemma map_range_getLast (f : ℕ → ℚ) (m : ℕ) (hm : 0 < m) :
    ((List.range m).map f).getLast? = some (f (m - 1)) := by
  have hrw : m = (m - 1) + 1 := by omega
  rw [hrw, List.range_succ, List.map_append]
  simp [List.getLast?_concat]

lemma map_range_head (f : ℕ → ℚ) (m : ℕ) (hm : 0 < m) :
    ((List.range m).map f).head? = some (f 0) := by
  have hrw : m = (m - 1) + 1 := by omega
  rw [hrw, List.range_succ_eq_map]
  simp

lemma toNat_cast_q (n : ℤ) (hn : 2 ≤ n) : ((n.toNat : ℚ)) = (n : ℚ) := by
  have h := Int.toNat_of_nonneg (show (0 : ℤ) ≤ n by omega)
  exact_mod_cast congrArg (fun z : ℤ => (z : ℚ)) h

lemma toNat_sub_one_cast_q (n : ℤ) (hn : 2 ≤ n) :
    ((n.toNat - 1 : ℕ) : ℚ) = (n : ℚ) - 1 := by
  have h2 : 2 ≤ n.toNat := by omega
  rw [Nat.cast_sub (by omega), toNat_cast_q n hn]
  norm_num

lemma last_key_eq (lo u : ℚ) (n : ℤ) (hn : 2 ≤ n) :
    lo + ((n.toNat - 1 : ℕ) : ℚ) * (u - lo) / ((n : ℚ) - 1) = u := by
  rw [toNat_sub_one_cast_q n hn,
    mul_div_cancel_left₀ (u - lo) (cast_sub_one_ne_zero n hn)]
  ring

/-- C2: the Binner's per-observation assignment scans the adjacent key
pairs `(keys[i-1], keys[i])` in order from the second key onward and
assigns the observation to the left key of the first pair with
`keys[i-1] ≤ obs < keys[i]`; when no pair matches (observation at or
beyond the last key, below the first key with malformed custom keys, or
a single-key list) the observation goes to the last key's list.  For
`Dataset = [1,10]` with explicit `keys = [1,10]`, observation 1 goes to
bin 1 and observation 10 to bin 10. -/
theorem C2_assignment_rule (keys : List ℚ) (obs : ℚ) (h : keys ≠ []) :
    binTarget keys obs =
      .ok (((keys.zip keys.tail).find?
        (fun p => decide (p.1 ≤ obs ∧ obs < p.2))).elim
          (keys.getLast h) Prod.fst) ∧
    get_stack_dict [1, 10] 2 (some [1, 10]) = .ok [(1, [1]), (10, [10])] ∧
    binTarget [(1 : ℚ), 10] 1 = .ok 1 ∧ binTarget [(1 : ℚ), 10] 10 = .ok 10 := by
  refine ⟨?_, by with_unfolding_all rfl, by with_unfolding_all rfl,
    by with_unfolding_all rfl⟩
  unfold binTarget
  rw [scanPairs_eq_find]
  cases hf : (keys.zip keys.tail).find? (fun p => decide (p.1 ≤ obs ∧ obs < p.2)) with
  | some p => simp
  | none =>
      simp only [Option.map_none']
      rw [List.getLast?_eq_getLast keys h]
      simp

theorem C2_witness :
    binTarget [(1 : ℚ), 10] 10 =
      .ok (((([(1 : ℚ), 10]).zip ([(1 : ℚ), 10]).tail).find?
        (fun p => decide (p.1 ≤ (10 : ℚ) ∧ (10 : ℚ) < p.2))).elim
          (([(1 : ℚ), 10]).getLast (by simp)) Prod.fst) :=
  (C2_assignment_rule [(1 : ℚ), 10] 10 (by simp)).1

set_option maxRecDepth 40000 in
/-- C3: for a non-empty dataset and integer `num_stacks ≥ 2` the Key
Generator returns exactly `num_stacks` values, the i-th being
`min(data) + i·(max(data)−min(data))/(num_stacks−1)`; the first key is
the minimum and the last the maximum.  For the spec's example dataset
with `num_stacks = 5` the keys are `[1, 2.25, 3.5, 4.75, 6]`. -/
theorem C3_key_formula (data : List ℚ) (n : ℤ) (lo u : ℚ) (hn : 2 ≤ n)
    (hlo : pyMin data = .ok lo) (hu : pyMax data = .ok u) :
    (∃ ks, get_stack_keys data n = .ok ks ∧
      ks.length = n.toNat ∧
      (∀ i : ℕ, i < n.toNat →
        ks[i]? = some (lo + (i : ℚ) * (u - lo) / ((n : ℚ) - 1))) ∧
      ks.head? = some lo ∧ ks.getLast? = some u) ∧
    get_stack_keys [1, 2, 3, 3, 3, 3, 5, 6, 6, 2, 3, 4, 2, 1, 2] 5 =
      .ok [1, 9/4, 7/2, 19/4, 6] := by
  refine ⟨?_, by with_unfolding_all rfl⟩
  cases data with
  | nil => cases hlo
  | cons d ds =>
      unfold pyMin at hlo
      unfold pyMax at hu
      cases hlo
      cases hu
      have hm : 0 < n.toNat := by omega
      refine ⟨_, get_stack_keys_eq d ds n hn, by simp, ?_, ?_, ?_⟩
      · intro i hi
        rw [List.getElem?_map, List.getElem?_range hi]
        rfl
      · rw [map_range_head _ _ hm]
        norm_num
      · rw [map_range_getLast _ _ hm]
        rw [last_key_eq (ds.foldl min d) (ds.foldl max d) n hn]

set_option maxRecDepth 40000 in
theorem C3_witness :
    get_stack_keys [1, 2, 3, 3, 3, 3, 5, 6, 6, 2, 3, 4, 2, 1, 2] 5 =
      .ok [1, 9/4, 7/2, 19/4, 6] :=
  (C3_key_formula [1, 2] 2 1 2 (by decide)
    (by with_unfolding_all rfl) (by with_unfolding_all rfl)).2

/-- C4: with auto-generated keys (non-empty dataset, `num_stacks ≥ 2`),
an observation equal to the dataset maximum never satisfies any strict
upper-bound test, so the Binner assigns it to the last boundary key's
bin, and that last key is the maximum itself. -/
theorem C4_max_in_last_bin (data : List ℚ) (n : ℤ) (ks : List ℚ) (u : ℚ)
    (hn : 2 ≤ n) (hu : pyMax data = .ok u)
    (hks : get_stack_keys data n = .ok ks) :
    binTarget ks u = .ok u ∧ ks.getLast? = some u := by
  cases data with
  | nil => cases hu
  | cons d ds =>
      unfold pyMax at hu
      cases hu
      rw [get_stack_keys_eq d ds n hn] at hks
      cases hks
      set lo := ds.foldl min d with hlo
      set u := ds.foldl max d with hu2
      have hm : 0 < n.toNat := by omega
      have hbpos : (0 : ℚ) < (n : ℚ) - 1 := by
        have : (2 : ℚ) ≤ (n : ℚ) := by exact_mod_cast hn
        linarith
      have hlast : ((List.range n.toNat).map
          (fun i : ℕ => lo + (i : ℚ) * (u - lo) / ((n : ℚ) - 1))).getLast? =
          some u := by
        rw [map_range_getLast _ _ hm, last_key_eq lo u n hn]
      have hle : ∀ b ∈ (List.range n.toNat).map
          (fun i : ℕ => lo + (i : ℚ) * (u - lo) / ((n : ℚ) - 1)), b ≤ u := by
        intro b hb
        rw [List.mem_map] at hb
        obtain ⟨i, hi, hbi⟩ := hb
        rw [List.mem_range] at hi
        have hiq : (i : ℚ) ≤ (n : ℚ) - 1 := by
          have h1 : (i : ℚ) ≤ ((n.toNat - 1 : ℕ) : ℚ) := by
            exact_mod_cast Nat.le_sub_one_of_lt hi
          rw [toNat_sub_one_cast_q n hn] at h1
          exact h1
        have hul : (0 : ℚ) ≤ u - lo := by
          have := pyMin_le_pyMax d ds
          rw [← hlo, ← hu2] at this
          linarith
        have hnum : (i : ℚ) * (u - lo) ≤ ((n : ℚ) - 1) * (u - lo) :=
          mul_le_mul_of_nonneg_right hiq hul
        have hdiv : (i : ℚ) * (u - lo) / ((n : ℚ) - 1) ≤
            ((n : ℚ) - 1) * (u - lo) / ((n : ℚ) - 1) :=
          (div_le_div_iff_of_pos_right hbpos).mpr hnum
        rw [mul_div_cancel_left₀ (u - lo) (ne_of_gt hbpos)] at hdiv
        rw [← hbi]
        linarith
      have hscan := scanPairs_none_of_ge _ u hle
      refine ⟨?_, hlast⟩
      unfold binTarget
      rw [hscan, hlast]

theorem C4_witness :
    binTarget [(1 : ℚ), 2] 2 = .ok 2 ∧ ([(1 : ℚ), 2]).getLast? = some 2 :=
  C4_max_in_last_bin [1, 2] 2 [(1 : ℚ), 2] 2 (by decide)
    (by with_unfolding_all rfl) (by with_unfolding_all rfl)

/-- C5 as stated is false: a duplicated boundary key collapses in the
dict comprehension, so the mapping can have fewer keys than the
supplied Boundary Keys sequence — here keys `[5,5]` yield a one-key
mapping. -/
theorem C5_counterexample :
    get_stack_dict ([] : List ℚ) 0 (some [5, 5]) = .ok [((5 : ℚ), [])] ∧
      (kOf [((5 : ℚ), ([] : List ℚ))]).length ≠ ([(5 : ℚ), 5]).length := by
  constructor
  · with_unfolding_all rfl
  · decide

lemma mem_firstOccur (l : List ℚ) (m : ℚ) : m ∈ firstOccur l ↔ m ∈ l := by
  induction l with
  | nil => simp [firstOccur]
  | cons a ks ih =>
      simp only [firstOccur, List.mem_cons, List.mem_filter, ih,
        decide_eq_true_eq]
      by_cases hm : m = a
      · simp [hm]
      · simp [hm]

lemma firstOccur_append_single (keys : List ℚ) (k : ℚ) :
    firstOccur (keys ++ [k]) =
      if k ∈ keys then firstOccur keys else firstOccur keys ++ [k] := by
  induction keys with
  | nil => simp [firstOccur]
  | cons a ks ih =>
      simp only [List.cons_append, firstOccur, List.append_eq]
      by_cases hk : k ∈ ks
      · rw [ih, if_pos hk, if_pos (List.mem_cons_of_mem a hk)]
      · rw [ih, if_neg hk]
        by_cases hka : k = a
        · have hmem : k ∈ a :: ks := by
            rw [hka]
            exact List.mem_cons_self a ks
          rw [if_pos hmem, List.filter_append]
          subst hka
          simp
        · have hmem : ¬ k ∈ a :: ks := by simp [hka, hk]
          rw [if_neg hmem, List.filter_append]
          simp [hka]

lemma kOf_dictInit_firstOccur (keys : List ℚ) :
    kOf (dictInit keys) = firstOccur keys := by
  induction keys using List.reverseRecOn with
  | nil => rfl
  | append_singleton ks k ih =>
      have hstep : dictInit (ks ++ [k]) = dictSet (dictInit ks) k [] := by
        unfold dictInit
        rw [List.foldl_append]
        rfl
      rw [hstep, kOf_dictSet, ih, firstOccur_append_single]
      by_cases hk : k ∈ ks
      · rw [if_pos ((mem_firstOccur ks k).mpr hk), if_pos hk]
      · rw [if_neg (fun hc => hk ((mem_firstOccur ks k).mp hc)), if_neg hk]

lemma firstOccur_of_nodup (keys : List ℚ) (h : keys.Nodup) :
    firstOccur keys = keys := by
  induction keys with
  | nil => rfl
  | cons a ks ih =>
      obtain ⟨ha, hnd⟩ := List.nodup_cons.mp h
      simp only [firstOccur, ih hnd]
      congr 1
      apply List.filter_eq_self.mpr
      intro m hm
      simp only [decide_eq_true_eq]
      intro hc
      exact ha (hc ▸ hm)

lemma firstOccur_length_le (l : List ℚ) :
    (firstOccur l).length ≤ l.length := by
  induction l with
  | nil => simp [firstOccur]
  | cons a ks ih =>
      simp only [firstOccur, List.length_cons]
      have hf := List.length_filter_le (fun m => decide (m ≠ a)) (firstOccur ks)
      omega

lemma firstOccur_length_lt (l : List ℚ) (h : ¬ l.Nodup) :
    (firstOccur l).length < l.length := by
  induction l with
  | nil => exact absurd List.nodup_nil h
  | cons a ks ih =>
      simp only [firstOccur, List.length_cons]
      by_cases ha : a ∈ ks
      · have hmem : a ∈ firstOccur ks := (mem_firstOccur ks a).mpr ha
        have hlt : ((firstOccur ks).filter (fun m => decide (m ≠ a))).length <
            (firstOccur ks).length :=
          List.length_filter_lt_length_iff_exists.mpr ⟨a, hmem, by simp⟩
        have hle := firstOccur_length_le ks
        omega
      · have hks : ¬ ks.Nodup := fun hc => h (List.nodup_cons.mpr ⟨ha, hc⟩)
        have hlt := ih hks
        have hle := List.length_filter_le (fun m => decide (m ≠ a)) (firstOccur ks)
        omega

/-- C5 amended: the Bin Mapping's key sequence is exactly the supplied
Boundary Keys in first-occurrence order with duplicates collapsed
(`firstOccur`): a value is a mapping key iff it occurs among the
Boundary Keys, the mapping keys are duplicate-free, for pairwise
distinct Boundary Keys the mapping's key sequence is the Boundary Keys
sequence itself, and the key counts agree exactly when the Boundary
Keys are pairwise distinct. -/
theorem C5_amended_keys (data : List ℚ) (n : ℤ) (keys : List ℚ)
    (d : List (ℚ × List ℚ)) (h : get_stack_dict data n (some keys) = .ok d) :
    kOf d = firstOccur keys ∧
    (∀ k, k ∈ kOf d ↔ k ∈ keys) ∧
    (kOf d).Nodup ∧
    (keys.Nodup → kOf d = keys) ∧
    ((kOf d).length = keys.length ↔ keys.Nodup) := by
  rw [get_stack_dict_some] at h
  have hk := binLoop_kOf keys data (dictInit keys) d h
  have hfo : kOf d = firstOccur keys := by
    rw [hk]
    exact kOf_dictInit_firstOccur keys
  refine ⟨hfo, ?_, ?_, ?_, ?_, ?_⟩
  · intro k
    rw [hfo]
    exact mem_firstOccur keys k
  · rw [hk]
    exact nodup_kOf_dictInit keys
  · intro hnd
    rw [hfo]
    exact firstOccur_of_nodup keys hnd
  · intro hlen
    by_contra hnd
    have hlt := firstOccur_length_lt keys hnd
    rw [hfo] at hlen
    omega
  · intro hnd
    rw [hfo, firstOccur_of_nodup keys hnd]

theorem C5_witness :
    kOf [((5 : ℚ), ([] : List ℚ))] = firstOccur [5, 5] :=
  (C5_amended_keys [] 0 [5, 5] [((5 : ℚ), [])] (by with_unfolding_all rfl)).1

/-- C6 as stated is false for `num_stacks ≤ 0`: `range(num_stacks)` is
then empty, the comprehension never divides, and the Key Generator
returns an empty key list without any error — here `num_stacks = 0`
succeeds although `0 ≤ 1`. -/
theorem C6_counterexample :
    get_stack_keys [(5 : ℚ)] 0 = .ok [] ∧ (0 : ℤ) ≤ 1 :=
  ⟨rfl, by decide⟩

/-- C6 amended: on a non-empty dataset, `num_stacks = 1` fails with the
division-by-zero error class (spacing divides by `num_stacks − 1 = 0`)
and produces no key list, while `num_stacks ≤ 0` does not fail at all:
the comprehension is empty and the empty key list is returned. -/
theorem C6_amended (data : List ℚ) (h : data ≠ []) :
    get_stack_keys data 1 = .error .divisionByZero ∧
      ∀ n : ℤ, n ≤ 0 → get_stack_keys data n = .ok [] := by
  cases data with
  | nil => exact absurd rfl h
  | cons d ds =>
      constructor
      · with_unfolding_all rfl
      · intro n hn
        have h0 : n.toNat = 0 := by omega
        rw [get_stack_keys_cons,
          show pyRange n = [] by simp [pyRange, h0]]
        rfl

theorem C6_witness :
    get_stack_keys [(5 : ℚ)] 1 = .error .divisionByZero ∧
      get_stack_keys [(5 : ℚ)] (-3) = .ok [] :=
  ⟨(C6_amended [5] (List.cons_ne_nil 5 [])).1,
    (C6_amended [5] (List.cons_ne_nil 5 [])).2 (-3) (by decide)⟩

/-- C8: when every observation equals the same value `c`, key
generation with `num_stacks ≥ 2` still succeeds and every generated
key equals `c`; in the spec's Scenario B, `[5,5,5]` with 3 stacks
collapses to the single bin keyed 5 holding all three observations,
and the Coordinate Pairs are `[(5,1),(5,2),(5,3)]`. -/
theorem C8_degenerate (data : List ℚ) (c : ℚ) (n : ℤ) (hne : data ≠ [])
    (hall : ∀ x ∈ data, x = c) (hn : 2 ≤ n) :
    (∃ ks, get_stack_keys data n = .ok ks ∧ ks.length = n.toNat ∧
      ∀ k ∈ ks, k = c) ∧
    get_stack_keys [5, 5, 5] 3 = .ok [5, 5, 5] ∧
    get_stack_dict [5, 5, 5] 3 none = .ok [(5, [5, 5, 5])] ∧
    get_points [((5 : ℚ), [5, 5, 5])] = [(5, 1), (5, 2), (5, 3)] := by
  refine ⟨?_, by with_unfolding_all rfl, by with_unfolding_all rfl,
    by with_unfolding_all rfl⟩
  cases data with
  | nil => exact absurd rfl hne
  | cons d ds =>
      have hd : d = c := hall d (List.mem_cons_self d ds)
      subst hd
      have hrest : ∀ x ∈ ds, x = d :=
        fun x hx => hall x (List.mem_cons_of_mem d hx)
      have hmax : ds.foldl max d = d := foldl_max_const ds d hrest
      have hmin : ds.foldl min d = d := foldl_min_const ds d hrest
      refine ⟨_, get_stack_keys_eq d ds n hn, by simp, ?_⟩
      intro k hk
      rw [List.mem_map] at hk
      obtain ⟨i, _, hik⟩ := hk
      rw [hmax, hmin] at hik
      rw [← hik]
      simp

theorem C8_witness :
    get_stack_dict [5, 5, 5] 3 none = .ok [(5, [5, 5, 5])] :=
  (C8_degenerate [5, 5, 5] 5 3 (List.cons_ne_nil 5 [5, 5])
    (by decide) (by decide)).2.2.1

lemma enum_pairs_eq (k : ℚ) (l : List ℚ) :
    l.enum.map (fun iq => (k, iq.1 + 1)) =
      (List.range l.length).map (fun i => (k, i + 1)) := by
  rw [List.enum_eq_zip_range,
    show (fun iq : ℕ × ℚ => (k, iq.1 + 1)) =
      (fun i : ℕ => (k, i + 1)) ∘ Prod.fst from rfl,
    ← List.map_map, List.map_fst_zip _ _ (by simp)]

lemma get_points_acc (d : List (ℚ × List ℚ)) :
    ∀ acc, d.foldl (fun acc p => acc ++ p.2.enum.map (fun iq => (p.1, iq.1 + 1))) acc =
      acc ++ d.flatMap (fun p => (List.range p.2.length).map (fun i => (p.1, i + 1))) := by
  induction d with
  | nil => intro acc; simp
  | cons p rest ih =>
      intro acc
      simp only [List.foldl_cons, List.flatMap_cons]
      rw [ih, enum_pairs_eq, List.append_assoc]

lemma bind_points_length (d : List (ℚ × List ℚ)) :
    (d.flatMap (fun p => (List.range p.2.length).map (fun i => (p.1, i + 1)))).length =
      sumLen d := by
  induction d with
  | nil => rfl
  | cons p rest ih =>
      rw [List.flatMap_cons, List.length_append, List.length_map,
        List.length_range, ih]
      simp [sumLen]

/-- C9: the Point Projector emits, for each key in mapping order and
each observation at 0-based position `i` of that key's list in order,
the pair `(key, i+1)`; so the y-values of a key's group are exactly
`1, 2, …, k` in ascending order (`k` the bin size), and no observation
is filtered, reordered, or duplicated — the output length is the total
number of binned observations. -/
theorem C9_point_projection (d : List (ℚ × List ℚ)) :
    get_points d =
      d.flatMap (fun p => (List.range p.2.length).map (fun i => (p.1, i + 1))) ∧
    (get_points d).length = sumLen d := by
  have h := get_points_acc d []
  rw [List.nil_append] at h
  constructor
  · exact h
  · rw [show get_points d =
      d.foldl (fun acc p => acc ++ p.2.enum.map (fun iq => (p.1, iq.1 + 1))) []
      from rfl, h]
    exact bind_points_length d

/-- C10 (implicit): with caller-supplied non-empty boundary keys the
Binner never consults `num_stacks` (the result is literally the same
function of the data and keys for every `num_stacks`) and never calls
the Key Generator, so it succeeds for any dataset even when
`num_stacks ≤ 1`; on the empty dataset it returns the freshly
initialized mapping where every supplied key is bound to an empty
list. -/
theorem C10_explicit_keys (keys : List ℚ) (h : keys ≠ []) :
    (∀ (data : List ℚ) (n m : ℤ),
      get_stack_dict data n (some keys) = get_stack_dict data m (some keys)) ∧
    (∀ (data : List ℚ) (n : ℤ), ∃ d, get_stack_dict data n (some keys) = .ok d) ∧
    (∀ n : ℤ, get_stack_dict [] n (some keys) = .ok (dictInit keys)) ∧
    (∀ p ∈ dictInit keys, p.2 = ([] : List ℚ)) := by
  refine ⟨fun data n m => rfl, ?_, fun n => rfl, dictInit_values keys⟩
  intro data n
  rw [get_stack_dict_some]
  exact binLoop_ok_of_ne_nil keys data h (dictInit keys)

theorem C10_witness :
    get_stack_dict [] 0 (some [(1 : ℚ), 2]) = .ok (dictInit [(1 : ℚ), 2]) :=
  (C10_explicit_keys [(1 : ℚ), 2] (List.cons_ne_nil 1 [2])).2.2.1 0
